import Mathlib

/-!
Verification of the calculator engine in `CALCULATOR/calc_script.js`.

The engine is a flat state machine over four mutable fields
(`currentInput`, `previousInput`, `operation`, `shouldResetDisplay`).
Every user intent (digit, decimal point, operator, equals, percent,
clear-all, erase) mutates the state and usually pushes the new
`currentInput` to the display.

Modelling choices (shallow embedding):
* JavaScript numbers are modelled as exact fractions `JsNum`
  (an `Int` numerator over a `Nat` denominator, not necessarily reduced).
  All values the engine can actually build are far below the magnitudes
  where IEEE-754 doubles diverge from exact arithmetic, except for very
  long inputs, which no claim here depends on.  `NaN` is modelled by
  `Option.none` at the parsing boundary, exactly mirroring the
  `isNaN` guards in the source.
* `parseFloat` is modelled by `jsParseFloat`: skip leading whitespace,
  optional sign, integer digits, optional fraction, optional exponent,
  ignoring any trailing garbage; `none` when no digit was consumed.
  (The `"Infinity"` literal accepted by JavaScript is not modelled; no
  reachable engine string is that literal.)
* `Number.prototype.toString` is modelled by `numToStr`, including the
  ECMA-262 choice between positional and exponential notation: with the
  significant digits `s` (k of them) and the decimal-point position `n`
  (value = 0.s × 10^n), the output is positional for -6 < n ≤ 21 and
  exponential (`"1e-8"`, `"1e+21"`) otherwise.  Digits are exact for
  fractions with a terminating decimal form and truncated to 17
  significant digits otherwise (JavaScript prints the shortest
  round-tripping form of the nearest double there; no claim's verdict
  depends on that branch).  Because the model computes exactly, it never
  overflows: the IEEE-754 program can also display `"Infinity"` (and
  strings derived from it) once magnitudes pass about 1e308, which needs
  inputs hundreds of keys long; the display alphabet below lists the
  `"Infinity"` fronts for faithfulness even though the exact model never
  emits them.
-/

namespace Calculator

/-! ## Characters and digit strings -/

def isDigitChar (c : Char) : Bool :=
  decide (48 ≤ c.toNat) && decide (c.toNat ≤ 57)

def isWS (c : Char) : Bool :=
  c == ' ' || c == '\t' || c == '\n' || c == '\r'

def digitVal (c : Char) : Nat := c.toNat - 48

def digitsToNat (ds : List Char) : Nat :=
  ds.foldl (fun a c => 10 * a + digitVal c) 0

def digitCharOf (n : Nat) : Char :=
  if n = 0 then '0' else if n = 1 then '1' else if n = 2 then '2'
  else if n = 3 then '3' else if n = 4 then '4' else if n = 5 then '5'
  else if n = 6 then '6' else if n = 7 then '7' else if n = 8 then '8'
  else '9'

def digitStr (d : Fin 10) : String := String.mk [digitCharOf d.val]

/-! ## Exact JavaScript numbers -/

/-- An exact (not necessarily reduced) fraction `n / d` standing for a
JavaScript number.  Every value the engine constructs has `0 < d`. -/
structure JsNum where
  n : Int
  d : Nat
deriving DecidableEq, Repr

def addJ (a b : JsNum) : JsNum := ⟨a.n * b.d + b.n * a.d, a.d * b.d⟩

def subJ (a b : JsNum) : JsNum := ⟨a.n * b.d - b.n * a.d, a.d * b.d⟩

def mulJ (a b : JsNum) : JsNum := ⟨a.n * b.n, a.d * b.d⟩

def divJ (a b : JsNum) : JsNum :=
  ⟨a.n * b.d * (if b.n < 0 then -1 else 1), a.d * b.n.natAbs⟩

/-! ## Rendering a number to a string (`Number.prototype.toString`) -/

/-- Euclidean gcd with explicit structural fuel, so that the kernel can
evaluate it.  `gcdFuel (m+1) m n` computes `Nat.gcd m n`. -/
def gcdFuel : Nat → Nat → Nat → Nat
  | 0, _, n => n
  | f + 1, m, n => if m = 0 then n else gcdFuel f (n % m) m

/-- `stripFac fuel p n = (k, r)` where `n = p^k * r` and `p` does not
divide `r` (for `2 ≤ p`, `n ≠ 0`, and enough fuel). -/
def stripFac : Nat → Nat → Nat → Nat × Nat
  | 0, _, n => (0, n)
  | f + 1, p, n =>
    if 2 ≤ p ∧ n % p = 0 ∧ n ≠ 0 then
      let r := stripFac f p (n / p)
      (r.1 + 1, r.2)
    else (0, n)

def natDigitsAux : Nat → Nat → List Char
  | 0, _ => []
  | f + 1, n => if n = 0 then [] else natDigitsAux f (n / 10) ++ [digitCharOf (n % 10)]

/-- Decimal digits of a natural number. -/
def natDigits (n : Nat) : String :=
  if n = 0 then "0" else String.mk (natDigitsAux n n)

def stripTrailingZeros (cs : List Char) : List Char :=
  (cs.reverse.dropWhile (fun c => c == '0')).reverse

/-- ECMA-262 number-to-string layout: given the significant digits `s0`
(no trailing zeros) and the decimal-point position `nn`
(value = 0.s0 × 10^nn), produce positional notation when -6 < nn ≤ 21
and exponential notation (`1e-8`, `1.5e+21`) otherwise. -/
def ecmaFormat (s0 : List Char) (nn : Int) : List Char :=
  let s := if s0.isEmpty then ['0'] else s0
  let kk : Int := s.length
  if kk ≤ nn ∧ nn ≤ 21 then s ++ List.replicate (nn - kk).toNat '0'
  else if 0 < nn ∧ nn ≤ 21 then s.take nn.toNat ++ '.' :: s.drop nn.toNat
  else if -6 < nn ∧ nn ≤ 0 then '0' :: '.' :: (List.replicate (-nn).toNat '0' ++ s)
  else
    s.take 1 ++
      (if s.length ≤ 1 then [] else '.' :: s.drop 1) ++
      'e' :: (if nn - 1 < 0 then '-' :: (natDigits (1 - nn).toNat).data
        else '+' :: (natDigits (nn - 1).toNat).data)

/-- Least `j ≥ j0` with `d ≤ n * 10^j` (fuelled search): position of the
first significant digit of `n / d` below one. -/
def sigShift : Nat → Nat → Nat → Nat → Nat
  | 0, _, _, j => j
  | f + 1, n, d, j => if d ≤ n * 10 ^ j then j else sigShift f n d (j + 1)

/-- The display form of a `JsNum`, mirroring `Number.prototype.toString`
for the values the engine can build: significant digits (exact in the
terminating case, 17 of them otherwise) laid out by `ecmaFormat`. -/
def numToStr (q : JsNum) : String :=
  if q.d = 0 then
    if q.n < 0 then "-Infinity" else if q.n = 0 then "NaN" else "Infinity"
  else if q.n = 0 then "0"
  else
    let sgn : List Char := if q.n < 0 then ['-'] else []
    let n0 := q.n.natAbs
    let g := gcdFuel (n0 + 1) n0 q.d
    let n := n0 / g
    let d := q.d / g
    let r2 := stripFac d 2 d
    let r5 := stripFac r2.2 5 r2.2
    if r5.2 = 1 then
      let k := max r2.1 r5.1
      let ds := (natDigits (n * 10 ^ k / d)).data
      String.mk (sgn ++ ecmaFormat (stripTrailingZeros ds) ((ds.length : Int) - k))
    else if n / d = 0 then
      let j := sigShift ((natDigits d).data.length + 1) n d 1
      let ds := (natDigits (n * 10 ^ (j + 16) / d)).data
      String.mk (sgn ++ ecmaFormat (stripTrailingZeros ds) (1 - j))
    else
      let m := (natDigits (n / d)).data.length
      let ds := (natDigits (n * 10 ^ 17 / d)).data
      String.mk (sgn ++ ecmaFormat (stripTrailingZeros (ds.take 17)) m)

/-! ## `parseFloat` -/

/-- The exponent suffix of a decimal literal (`e`/`E`, optional sign,
digits); yields the factor `10^exp` as a fraction, `1` when absent or
malformed (JavaScript then keeps only the shorter valid prefix). -/
def expFactor (cs : List Char) : JsNum :=
  match cs with
  | [] => ⟨1, 1⟩
  | c :: t =>
    if c == 'e' || c == 'E' then
      let neg := t.head? = some '-'
      let t2 := if t.head? = some '-' ∨ t.head? = some '+' then t.tail else t
      let eds := t2.takeWhile isDigitChar
      if eds.isEmpty then ⟨1, 1⟩
      else if neg then ⟨1, 10 ^ digitsToNat eds⟩ else ⟨(10 : Int) ^ digitsToNat eds, 1⟩
    else ⟨1, 1⟩

/-- The value of integer digits `intDs` and fraction digits `fracDs`
as an exact fraction. -/
def mantissaOf (intDs fracDs : List Char) : JsNum :=
  ⟨(digitsToNat intDs : Int) * 10 ^ fracDs.length + digitsToNat fracDs,
    10 ^ fracDs.length⟩

/-- Assembly step of `parseFloat` once sign, digit groups and the
exponent-candidate tail have been split off. -/
def jsParseFloatCore (neg : Bool) (intDs fracDs tailCs : List Char) : Option JsNum :=
  if intDs.isEmpty ∧ fracDs.isEmpty then none
  else
    let v := mulJ (mantissaOf intDs fracDs) (expFactor tailCs)
    if neg then some ⟨-v.n, v.d⟩ else some v

/-- Model of `parseFloat`: longest valid decimal-literal front of the
string, `none` (JavaScript `NaN`) when no digit is consumed. -/
def jsParseFloat (s : String) : Option JsNum :=
  let cs0 := s.data.dropWhile isWS
  let cs1 := if cs0.head? = some '-' ∨ cs0.head? = some '+' then cs0.tail else cs0
  let intDs := cs1.takeWhile isDigitChar
  let cs2 := cs1.dropWhile isDigitChar
  let fracDs := if cs2.head? = some '.' then cs2.tail.takeWhile isDigitChar else []
  let cs3 := if cs2.head? = some '.' then cs2.tail.dropWhile isDigitChar else cs2
  jsParseFloatCore (decide (cs0.head? = some '-')) intDs fracDs cs3

/-! ## Engine state and operations -/

/-- The five operator tokens of the source (`'+'`, `'−'`, `'×'`, `'÷'`,
`'%'`).  `pct` is listed in `calculate`'s `switch` but is never stored
in `operation` by any event handler. -/
inductive Op where
  | add | sub | mul | div | pct
deriving DecidableEq, Repr

/-- `result` in `calculate`: either a number or the `'Error'` string. -/
inductive CalcResult where
  | ofNum (q : JsNum)
  | errorStr
deriving DecidableEq, Repr

def CalcResult.toDisplay : CalcResult → String
  | .ofNum q => numToStr q
  | .errorStr => "Error"

/-- The four module-level mutable variables of `calc_script.js`. -/
structure CalcState where
  currentInput : String
  previousInput : String
  operation : Option Op
  shouldResetDisplay : Bool
deriving DecidableEq, Repr

def initState : CalcState := ⟨"0", "", none, false⟩

/-- `String.prototype.includes` restricted to a single character. -/
def includesChar (s : String) (c : Char) : Bool :=
  s.data.any (fun x => x == c)

/-- `inputNumber(num)`.  Returns the new state and the list of strings
pushed to the display (`updateDisplay` reads `currentInput`). -/
def inputNumber (num : String) (s : CalcState) : CalcState × List String :=
  let s :=
    if s.shouldResetDisplay then
      { s with currentInput := num, shouldResetDisplay := false }
    else
      { s with currentInput := if s.currentInput = "0" then num else s.currentInput ++ num }
  (s, [s.currentInput])

/-- `inputDecimal()`. -/
def inputDecimal (s : CalcState) : CalcState × List String :=
  let s :=
    if s.shouldResetDisplay then
      { s with currentInput := "0.", shouldResetDisplay := false }
    else if !includesChar s.currentInput '.' then
      { s with currentInput := s.currentInput ++ "." }
    else s
  (s, [s.currentInput])

/-- `calculate()`.  The two `parseFloat` results are checked by the
`isNaN` guard before anything is mutated; an absent `operation` hits the
`default: return` branch. -/
def calculate (s : CalcState) : CalcState × List String :=
  match jsParseFloat s.previousInput with
  | none => (s, [])
  | some prev =>
    match jsParseFloat s.currentInput with
    | none => (s, [])
    | some current =>
      match s.operation with
      | none => (s, [])
      | some op =>
        let result : CalcResult :=
          match op with
          | .add => .ofNum (addJ prev current)
          | .sub => .ofNum (subJ prev current)
          | .mul => .ofNum (mulJ prev current)
          | .div => if current.n = 0 then .errorStr else .ofNum (divJ prev current)
          | .pct => .ofNum (divJ prev ⟨100, 1⟩)
        ({ currentInput := result.toDisplay, previousInput := "",
           operation := none, shouldResetDisplay := true },
         [result.toDisplay])

/-- `handleOperation(nextOperation)`.  Note that the chained branch
calls `calculate()` but stores nothing into `previousInput` (and
`calculate()` blanks it), faithfully to the source. -/
def handleOperation (nextOperation : Op) (s : CalcState) : CalcState × List String :=
  let r :=
    if s.operation.isSome && !s.shouldResetDisplay then
      calculate s
    else
      ({ s with previousInput := s.currentInput }, ([] : List String))
  ({ r.1 with operation := some nextOperation, shouldResetDisplay := true }, r.2)

/-- `handlePercent()`. -/
def handlePercent (s : CalcState) : CalcState × List String :=
  let str :=
    match jsParseFloat s.currentInput with
    | none => "NaN"
    | some v => numToStr (divJ v ⟨100, 1⟩)
  let s := { s with currentInput := str }
  (s, [s.currentInput])

/-- `allClear()`. -/
def allClear (_s : CalcState) : CalcState × List String :=
  (⟨"0", "", none, false⟩, ["0"])

/-- `erase()` (`currentInput.slice(0, -1)` drops the last character). -/
def erase (s : CalcState) : CalcState × List String :=
  let s :=
    if 1 < s.currentInput.length then
      { s with currentInput := String.mk s.currentInput.data.dropLast }
    else
      { s with currentInput := "0" }
  (s, [s.currentInput])

/-! ## Intents -/

/-- The four binary-operator buttons/keys; the event layer never passes
the percent token to `handleOperation`. -/
inductive BinOp where
  | add | sub | mul | div
deriving DecidableEq, Repr

def BinOp.toOp : BinOp → Op
  | .add => .add
  | .sub => .sub
  | .mul => .mul
  | .div => .div

/-- One user intent, as dispatched by the button/keyboard listeners. -/
inductive Intent where
  | digit (d : Fin 10)
  | dot
  | op (b : BinOp)
  | eq
  | pct
  | clear
  | erase
deriving DecidableEq, Repr

def step (s : CalcState) : Intent → CalcState × List String
  | .digit d => inputNumber (digitStr d) s
  | .dot => inputDecimal s
  | .op b => handleOperation b.toOp s
  | .eq => calculate s
  | .pct => handlePercent s
  | .clear => allClear s
  | .erase => erase s

def runFrom (s : CalcState) : List Intent → CalcState
  | [] => s
  | i :: l => runFrom (step s i).1 l

/-- State after a whole intent sequence, from a fresh engine. -/
def run (l : List Intent) : CalcState := runFrom initState l

def emitsFrom (s : CalcState) : List Intent → List String
  | [] => []
  | i :: l => (step s i).2 ++ emitsFrom (step s i).1 l

/-- Every string pushed to the display during an intent sequence. -/
def emits (l : List Intent) : List String := emitsFrom initState l

/-! ## Display-string predicates (from the specification's vocabulary) -/

def isDigitDot (c : Char) : Bool := isDigitChar c || c == '.'

def dotCount (cs : List Char) : Nat := cs.countP (fun c => c == '.')

/-- Body of a (possibly still being typed) exponent-free decimal
literal: digits and dots only, at most one dot. -/
def litBodyL (cs : List Char) : Bool :=
  cs.all isDigitDot && decide (dotCount cs ≤ 1)

/-- A front portion of a signed exponent-free decimal literal: nonempty,
an optional leading minus sign, then digits and dots with at most one
dot.  This is the spec's own "decimal literal string" vocabulary. -/
def litFrontL (cs : List Char) : Bool :=
  match cs with
  | [] => false
  | c :: t => if c = '-' then litBodyL t else litBodyL (c :: t)

def litFront (s : String) : Bool := litFrontL s.data

/-- Structure of a literal fragment: digits and dots, then optionally an
exponent marker `'e'` (preceded by at least one digit or dot) with an
optional single sign and again digits and dots.  (The dot budget is
checked separately by `eBody`.) -/
def eSplitOK (cs : List Char) : Bool :=
  if (cs.dropWhile isDigitDot).isEmpty then true
  else if (cs.dropWhile isDigitDot).head? = some 'e' then
    !(cs.takeWhile isDigitDot).isEmpty &&
      (if (cs.dropWhile isDigitDot).tail.head? = some '+' ∨
          (cs.dropWhile isDigitDot).tail.head? = some '-' then
        (cs.dropWhile isDigitDot).tail.tail.all isDigitDot
      else (cs.dropWhile isDigitDot).tail.all isDigitDot)
  else false

/-- A (possibly still being typed or erase-truncated) unsigned decimal
literal with an optional exponent part: at most one dot overall, and at
most one `'e'` with at most one sign right after it. -/
def eBody (cs : List Char) : Bool :=
  decide (dotCount cs ≤ 1) && eSplitOK cs

/-- A current-entry string while the reset flag is down: nonempty,
starts with a digit (hence parses), and is a literal fragment. -/
def entryOKL (cs : List Char) : Bool :=
  match cs with
  | [] => false
  | c :: _ => isDigitChar c && eBody cs

def entryOK (s : String) : Bool := entryOKL s.data

/-- A front portion of a signed decimal literal with optional exponent
part. -/
def eDispL (cs : List Char) : Bool :=
  match cs with
  | [] => false
  | c :: t => if c = '-' then eBody t else eBody (c :: t)

def eDisp (s : String) : Bool := eDispL s.data

/-- The nonempty front portions of the `"Error"` sentinel. -/
def errFronts : List String := ["E", "Er", "Err", "Erro", "Error"]

/-- The nonempty front portions of `"NaN"`. -/
def nanFronts : List String := ["N", "Na", "NaN"]

/-- The nonempty front portions of `"Infinity"` and `"-Infinity"` other
than `"-"` (which is already a literal front).  The exact-arithmetic
model never displays these — they require IEEE-754 overflow, that is,
operands hundreds of digits long — but the double-precision program can,
so the amended display alphabet lists them. -/
def infFronts : List String :=
  ["I", "In", "Inf", "Infi", "Infin", "Infini", "Infinit", "Infinity",
    "-I", "-In", "-Inf", "-Infi", "-Infin", "-Infini", "-Infinit", "-Infinity"]

/-- Amended display alphabet: a (possibly truncated) signed decimal
literal with optional exponent part, or a nonempty front portion of
`"Error"`, of `"NaN"`, or of `"±Infinity"` (`erase` can truncate the
sentinels character by character). -/
def goodDisp (s : String) : Bool :=
  eDisp s || errFronts.contains s || nanFronts.contains s || infFronts.contains s

/-- Display alphabet exactly as the specification words it: a decimal
literal string, the exact sentinel `"Error"`, or `"NaN"`. -/
def specDisplayOK (s : String) : Bool :=
  litFront s || s == "Error" || s == "NaN"

/-- Reachability invariant: the display string is always in the amended
alphabet, and whenever the reset flag is down the display string is a
digit-headed literal fragment (so in particular it parses). -/
def Inv (s : CalcState) : Prop :=
  goodDisp s.currentInput = true ∧
    (s.shouldResetDisplay = false → entryOK s.currentInput = true)

/-- Modelled from the spec: "concatenation of digits with leading
redundant zero suppressed" (§8). -/
def stripLeadZeros (cs : List Char) : String :=
  let t := cs.dropWhile (fun c => c == '0')
  if t.isEmpty then "0" else String.mk t

def digitChars (ds : List (Fin 10)) : List Char :=
  ds.map (fun d => digitCharOf d.val)

/-! ## Basic string and character lemmas -/

theorem data_append (s t : String) : (s ++ t).data = s.data ++ t.data := by
  cases s; cases t; rfl

theorem mk_data (cs : List Char) : (String.mk cs).data = cs := rfl

theorem mk_inj {as bs : List Char} (h : String.mk as = String.mk bs) : as = bs := by
  injection h

theorem isDigitChar_digitCharOf (n : Nat) : isDigitChar (digitCharOf n) = true := by
  unfold digitCharOf
  repeat' split
  all_goals decide

theorem beq_dot_false_of_digit {c : Char} (h : isDigitChar c = true) :
    (c == '.') = false := by
  rcases Bool.eq_false_or_eq_true (c == '.') with h2 | h2
  · have hc : c = '.' := by simpa using h2
    subst hc
    exact absurd h (by decide)
  · exact h2

theorem ne_dash_of_digit {c : Char} (h : isDigitChar c = true) : c ≠ '-' := by
  intro hc; subst hc; exact absurd h (by decide)

theorem ne_plus_of_digit {c : Char} (h : isDigitChar c = true) : c ≠ '+' := by
  intro hc; subst hc; exact absurd h (by decide)

theorem isWS_false_of_digit {c : Char} (h : isDigitChar c = true) :
    isWS c = false := by
  rcases Bool.eq_false_or_eq_true (isWS c) with h2 | h2
  · exfalso
    simp only [isWS, Bool.or_eq_true, beq_iff_eq] at h2
    rcases h2 with ((hc | hc) | hc) | hc <;> subst hc <;> exact absurd h (by decide)
  · exact h2

/-! ## Shape of rendered numbers -/

theorem natDigitsAux_all {f n : Nat} : ∀ c ∈ natDigitsAux f n, isDigitChar c = true := by
  induction f generalizing n with
  | zero => intro c hc; simp [natDigitsAux] at hc
  | succ f ih =>
    intro c hc
    unfold natDigitsAux at hc
    split at hc
    · simp at hc
    · rcases List.mem_append.mp hc with h | h
      · exact ih c h
      · simp only [List.mem_singleton] at h
        subst h
        exact isDigitChar_digitCharOf _

theorem natDigits_all {n : Nat} : ∀ c ∈ (natDigits n).data, isDigitChar c = true := by
  unfold natDigits
  split
  · intro c hc
    have : c = '0' := by simpa using hc
    subst this; decide
  · exact natDigitsAux_all

theorem natDigits_ne_nil (n : Nat) : (natDigits n).data ≠ [] := by
  unfold natDigits
  split
  · decide
  · rename_i hn
    cases n with
    | zero => exact absurd rfl hn
    | succ m =>
      show natDigitsAux (m + 1) (m + 1) ≠ []
      unfold natDigitsAux
      rw [if_neg (Nat.succ_ne_zero m)]
      simp

theorem stripTrailingZeros_sublist (cs : List Char) :
    (stripTrailingZeros cs).Sublist cs := by
  unfold stripTrailingZeros
  have h1 : (cs.reverse.dropWhile (fun c => c == '0')).Sublist cs.reverse :=
    List.dropWhile_sublist _
  simpa using h1.reverse

/-! ## Lemmas on the display-string predicates -/

theorem isDigitDot_of_digit {c : Char} (h : isDigitChar c = true) :
    isDigitDot c = true := by
  simp [isDigitDot, h]

theorem not_sign_of_digitDot {c : Char} (h : isDigitDot c = true) :
    ¬(c = '+' ∨ c = '-') := by
  rintro (rfl | rfl) <;> exact absurd h (by decide)

theorem dotCount_zero_of_digits {cs : List Char}
    (h : ∀ c ∈ cs, isDigitChar c = true) : dotCount cs = 0 :=
  List.countP_eq_zero.mpr fun a ha => by
    rw [beq_dot_false_of_digit (h a ha)]
    simp

theorem takeWhile_all_append {p : Char → Bool} {pre : List Char}
    (hp : ∀ x ∈ pre, p x = true) {c : Char} (hc : p c = false) (r : List Char) :
    (pre ++ c :: r).takeWhile p = pre ∧ (pre ++ c :: r).dropWhile p = c :: r := by
  induction pre with
  | nil =>
    constructor
    · rw [List.nil_append, List.takeWhile_cons, hc]
      rfl
    · rw [List.nil_append, List.dropWhile_cons, hc]
      rfl
  | cons a t ih =>
    have ha : p a = true := hp a (by simp)
    obtain ⟨ih1, ih2⟩ := ih fun x hx => hp x (by simp [hx])
    constructor
    · show (a :: (t ++ c :: r)).takeWhile p = a :: t
      simp [List.takeWhile_cons, ha, ih1]
    · show (a :: (t ++ c :: r)).dropWhile p = c :: r
      simp [List.dropWhile_cons, ha, ih2]

theorem eSplitOK_all {cs : List Char} (h : ∀ c ∈ cs, isDigitDot c = true) :
    eSplitOK cs = true := by
  unfold eSplitOK
  rw [List.dropWhile_eq_nil_iff.mpr h]
  rfl

theorem eSplitOK_exp {pre : List Char} (hp : ∀ c ∈ pre, isDigitDot c = true)
    (hpre : pre ≠ []) {b : Char} (hb : b = '+' ∨ b = '-') {t : List Char}
    (ht : ∀ c ∈ t, isDigitDot c = true) :
    eSplitOK (pre ++ 'e' :: b :: t) = true := by
  obtain ⟨htk, hdw⟩ :=
    takeWhile_all_append hp (by decide : isDigitDot 'e' = false) (b :: t)
  unfold eSplitOK
  rw [hdw, htk]
  simp only [List.isEmpty_cons, List.head?_cons, List.tail_cons, Option.some.injEq,
    if_true]
  rw [if_pos hb, List.all_eq_true.mpr ht]
  cases pre with
  | nil => exact absurd rfl hpre
  | cons a u => rfl

theorem eSplitOK_expAll {pre : List Char} (hp : ∀ c ∈ pre, isDigitDot c = true)
    (hpre : pre ≠ []) {r : List Char} (hr : ∀ c ∈ r, isDigitDot c = true) :
    eSplitOK (pre ++ 'e' :: r) = true := by
  obtain ⟨htk, hdw⟩ :=
    takeWhile_all_append hp (by decide : isDigitDot 'e' = false) r
  unfold eSplitOK
  rw [hdw, htk]
  simp only [List.isEmpty_cons, List.head?_cons, List.tail_cons, Option.some.injEq,
    if_true]
  cases r with
  | nil =>
    rw [if_neg (by simp)]
    cases pre with
    | nil => exact absurd rfl hpre
    | cons a u => rfl
  | cons b t =>
    have hbd : isDigitDot b = true := hr b (by simp)
    simp only [List.head?_cons, Option.some.injEq, List.tail_cons]
    rw [if_neg (not_sign_of_digitDot hbd), List.all_eq_true.mpr hr]
    cases pre with
    | nil => exact absurd rfl hpre
    | cons a u => rfl

theorem eSplitOK_dest {cs : List Char} (h : eSplitOK cs = true) :
    (∀ c ∈ cs, isDigitDot c = true) ∨
      ∃ pre r, cs = pre ++ 'e' :: r ∧ pre ≠ [] ∧
        (∀ c ∈ pre, isDigitDot c = true) ∧
        ((∃ b t, r = b :: t ∧ (b = '+' ∨ b = '-') ∧ ∀ c ∈ t, isDigitDot c = true) ∨
          ∀ c ∈ r, isDigitDot c = true) := by
  have hsplit := List.takeWhile_append_dropWhile isDigitDot cs
  have hpreAll : ∀ c ∈ cs.takeWhile isDigitDot, isDigitDot c = true :=
    fun c hc => List.mem_takeWhile_imp hc
  unfold eSplitOK at h
  rcases hdw : cs.dropWhile isDigitDot with _ | ⟨c, r⟩
  · left
    intro x hx
    rw [← hsplit, hdw, List.append_nil] at hx
    exact hpreAll x hx
  · rw [hdw] at h
    simp only [List.isEmpty_cons, List.head?_cons, List.tail_cons, Option.some.injEq] at h
    rw [if_neg (by decide)] at h
    by_cases hce : c = 'e'
    · subst hce
      rw [if_pos rfl, Bool.and_eq_true] at h
      obtain ⟨hne, hrest⟩ := h
      right
      refine ⟨cs.takeWhile isDigitDot, r, ?_, ?_, hpreAll, ?_⟩
      · conv_lhs => rw [← hsplit, hdw]
      · intro hemp
        rw [hemp] at hne
        simp at hne
      · rcases r with _ | ⟨b, t⟩
        · exact Or.inr fun c hc => by simp at hc
        · simp only [List.head?_cons, Option.some.injEq, List.tail_cons] at hrest
          by_cases hbs : b = '+' ∨ b = '-'
          · rw [if_pos hbs] at hrest
            exact Or.inl ⟨b, t, rfl, hbs, List.all_eq_true.mp hrest⟩
          · rw [if_neg hbs] at hrest
            exact Or.inr (List.all_eq_true.mp hrest)
    · rw [if_neg hce] at h
      exact Bool.noConfusion h

theorem eSplitOK_append {cs : List Char} {x : Char} (h : eSplitOK cs = true)
    (hx : isDigitDot x = true) : eSplitOK (cs ++ [x]) = true := by
  rcases eSplitOK_dest h with hall | ⟨pre, r, rfl, hpre, hp, hcase⟩
  · refine eSplitOK_all fun c hc => ?_
    rcases List.mem_append.mp hc with h1 | h1
    · exact hall c h1
    · rcases List.mem_singleton.mp h1 with rfl
      exact hx
  · rcases hcase with ⟨b, t, rfl, hbs, ht⟩ | hr
    · have hform : (pre ++ 'e' :: b :: t) ++ [x] = pre ++ 'e' :: b :: (t ++ [x]) := by
        simp
      rw [hform]
      refine eSplitOK_exp hp hpre hbs fun c hc => ?_
      rcases List.mem_append.mp hc with h1 | h1
      · exact ht c h1
      · rcases List.mem_singleton.mp h1 with rfl
        exact hx
    · have hform : (pre ++ 'e' :: r) ++ [x] = pre ++ 'e' :: (r ++ [x]) := by
        simp
      rw [hform]
      refine eSplitOK_expAll hp hpre fun c hc => ?_
      rcases List.mem_append.mp hc with h1 | h1
      · exact hr c h1
      · rcases List.mem_singleton.mp h1 with rfl
        exact hx

theorem dropLast_append_cons (xs : List Char) (a : Char) (ys : List Char) :
    (xs ++ a :: ys).dropLast = xs ++ (a :: ys).dropLast := by
  induction xs with
  | nil => rfl
  | cons b t ih =>
    show (b :: (t ++ a :: ys)).dropLast = b :: (t ++ (a :: ys).dropLast)
    rcases hdec : t ++ a :: ys with _ | ⟨c, u⟩
    · exact absurd hdec (by simp)
    · rw [List.dropLast_cons₂, ← hdec, ih]

theorem eSplitOK_dropLast {cs : List Char} (h : eSplitOK cs = true) :
    eSplitOK cs.dropLast = true := by
  rcases eSplitOK_dest h with hall | ⟨pre, r, rfl, hpre, hp, hcase⟩
  · exact eSplitOK_all fun c hc => hall c ((List.dropLast_sublist _).mem hc)
  · rcases hcase with ⟨b, t, rfl, hbs, ht⟩ | hr
    · cases t with
      | nil =>
        have hform : (pre ++ ['e', b]).dropLast = pre ++ ['e'] := by
          rw [dropLast_append_cons]
          rfl
        rw [hform]
        exact eSplitOK_expAll hp hpre fun c hc => by simp at hc
      | cons c u =>
        have hform : (pre ++ 'e' :: b :: c :: u).dropLast =
            pre ++ 'e' :: b :: (c :: u).dropLast := by
          rw [dropLast_append_cons]
          rfl
        rw [hform]
        exact eSplitOK_exp hp hpre hbs
          fun x hx => ht x ((List.dropLast_sublist _).mem hx)
    · cases r with
      | nil =>
        have hform : (pre ++ ['e']).dropLast = pre := by
          rw [dropLast_append_cons]
          simp
        rw [hform]
        exact eSplitOK_all hp
      | cons b t =>
        have hform : (pre ++ 'e' :: b :: t).dropLast =
            pre ++ 'e' :: (b :: t).dropLast := by
          rw [dropLast_append_cons]
          rfl
        rw [hform]
        exact eSplitOK_expAll hp hpre
          fun x hx => hr x ((List.dropLast_sublist _).mem hx)

theorem eBody_of_digits {cs : List Char} (h : ∀ c ∈ cs, isDigitChar c = true) :
    eBody cs = true := by
  unfold eBody
  rw [Bool.and_eq_true]
  constructor
  · simp [dotCount_zero_of_digits h]
  · exact eSplitOK_all fun c hc => isDigitDot_of_digit (h c hc)

theorem eBody_digits_dot {as bs : List Char}
    (ha : ∀ c ∈ as, isDigitChar c = true) (hb : ∀ c ∈ bs, isDigitChar c = true) :
    eBody (as ++ '.' :: bs) = true := by
  unfold eBody
  rw [Bool.and_eq_true]
  constructor
  · simp only [decide_eq_true_eq]
    have h1 := dotCount_zero_of_digits ha
    have h2 := dotCount_zero_of_digits hb
    unfold dotCount at *
    rw [List.countP_append, List.countP_cons, h1, h2]
    simp
  · refine eSplitOK_all fun c hc => ?_
    rcases List.mem_append.mp hc with h1 | h1
    · exact isDigitDot_of_digit (ha c h1)
    · rcases List.mem_cons.mp h1 with rfl | h2
      · decide
      · exact isDigitDot_of_digit (hb c h2)

theorem eBody_append {cs : List Char} {x : Char} (h : eBody cs = true)
    (hx : isDigitDot x = true) (hdot : x = '.' → dotCount cs = 0) :
    eBody (cs ++ [x]) = true := by
  unfold eBody at *
  rw [Bool.and_eq_true] at *
  obtain ⟨hcnt, hs⟩ := h
  refine ⟨?_, eSplitOK_append hs hx⟩
  simp only [decide_eq_true_eq] at *
  by_cases hxd : x = '.'
  · have hz := hdot hxd
    subst hxd
    unfold dotCount at *
    rw [List.countP_append, hz]
    decide
  · have hb : (x == '.') = false := by
      rcases Bool.eq_false_or_eq_true (x == '.') with h2 | h2
      · exact absurd (by simpa using h2) hxd
      · exact h2
    have hz : List.countP (fun c => c == '.') [x] = 0 := by
      rw [List.countP_cons]
      simp [hb]
    unfold dotCount at *
    rw [List.countP_append, hz]
    omega

theorem eBody_dropLast {cs : List Char} (h : eBody cs = true) :
    eBody cs.dropLast = true := by
  unfold eBody at *
  rw [Bool.and_eq_true] at *
  obtain ⟨hcnt, hs⟩ := h
  refine ⟨?_, eSplitOK_dropLast hs⟩
  simp only [decide_eq_true_eq] at *
  unfold dotCount at *
  exact le_trans ((List.dropLast_sublist _).countP_le _) hcnt

theorem entryOKL_cons {c : Char} {cs : List Char} (hc : isDigitChar c = true)
    (hb : eBody (c :: cs) = true) : entryOKL (c :: cs) = true := by
  show (isDigitChar c && eBody (c :: cs)) = true
  rw [hc, hb]
  rfl

theorem entryOKL_dest {cs : List Char} (h : entryOKL cs = true) :
    ∃ c t, cs = c :: t ∧ isDigitChar c = true ∧ eBody cs = true := by
  cases cs with
  | nil => exact Bool.noConfusion h
  | cons c t =>
    have h2 : (isDigitChar c && eBody (c :: t)) = true := h
    rw [Bool.and_eq_true] at h2
    exact ⟨c, t, rfl, h2.1, h2.2⟩

theorem eBody_of_entryOKL {cs : List Char} (h : entryOKL cs = true) :
    eBody cs = true := by
  obtain ⟨c, t, rfl, -, hb⟩ := entryOKL_dest h
  exact hb

theorem entryOKL_digits {cs : List Char} (hne : cs ≠ [])
    (h : ∀ c ∈ cs, isDigitChar c = true) : entryOKL cs = true := by
  cases cs with
  | nil => exact absurd rfl hne
  | cons c t => exact entryOKL_cons (h c (by simp)) (eBody_of_digits h)

theorem entryOKL_append {cs : List Char} {x : Char} (h : entryOKL cs = true)
    (hx : isDigitDot x = true) (hdot : x = '.' → dotCount cs = 0) :
    entryOKL (cs ++ [x]) = true := by
  obtain ⟨c, t, rfl, hc, hb⟩ := entryOKL_dest h
  show entryOKL (c :: (t ++ [x])) = true
  exact entryOKL_cons hc (eBody_append hb hx hdot)

theorem entryOKL_dropLast {cs : List Char} (h : entryOKL cs = true)
    (hlen : 1 < cs.length) : entryOKL cs.dropLast = true := by
  obtain ⟨c, t, rfl, hc, hb⟩ := entryOKL_dest h
  cases t with
  | nil => simp at hlen
  | cons b u =>
    rw [List.dropLast_cons₂]
    refine entryOKL_cons hc ?_
    have hd := eBody_dropLast hb
    rw [List.dropLast_cons₂] at hd
    exact hd

theorem eDispL_of_entryOKL {cs : List Char} (h : entryOKL cs = true) :
    eDispL cs = true := by
  obtain ⟨c, t, rfl, hc, hb⟩ := entryOKL_dest h
  show (if c = '-' then eBody t else eBody (c :: t)) = true
  rw [if_neg (ne_dash_of_digit hc)]
  exact hb

theorem eDispL_dash {t : List Char} (h : eBody t = true) :
    eDispL ('-' :: t) = true := by
  show (if ('-' : Char) = '-' then eBody t else eBody ('-' :: t)) = true
  rw [if_pos rfl]
  exact h

theorem eDispL_dropLast {cs : List Char} (h : eDispL cs = true)
    (hlen : 1 < cs.length) : eDispL cs.dropLast = true := by
  cases cs with
  | nil => exact Bool.noConfusion h
  | cons c t =>
    have h2 : (if c = '-' then eBody t else eBody (c :: t)) = true := h
    cases t with
    | nil => simp at hlen
    | cons b u =>
      rw [List.dropLast_cons₂]
      show (if c = '-' then eBody (b :: u).dropLast
        else eBody (c :: (b :: u).dropLast)) = true
      by_cases hc : c = '-'
      · rw [if_pos hc]
        rw [if_pos hc] at h2
        exact eBody_dropLast h2
      · rw [if_neg hc]
        rw [if_neg hc] at h2
        have hd := eBody_dropLast h2
        rw [List.dropLast_cons₂] at hd
        exact hd

/-! ## Shape of `numToStr` output -/

theorem dotCount_exp_tail {b : Char} (hb : b = '+' ∨ b = '-') {eds : List Char}
    (he : ∀ c ∈ eds, isDigitChar c = true) : dotCount ('e' :: b :: eds) = 0 := by
  have h3 := dotCount_zero_of_digits he
  unfold dotCount at *
  rcases hb with rfl | rfl <;> simp [List.countP_cons, h3]

theorem eBody_pre_exp {pre : List Char} (hp : ∀ c ∈ pre, isDigitDot c = true)
    (hpre : pre ≠ []) (hcnt : dotCount pre ≤ 1) {b : Char} (hb : b = '+' ∨ b = '-')
    {eds : List Char} (he : ∀ c ∈ eds, isDigitChar c = true) :
    eBody (pre ++ 'e' :: b :: eds) = true := by
  unfold eBody
  rw [Bool.and_eq_true]
  constructor
  · simp only [decide_eq_true_eq]
    have h2 := dotCount_exp_tail hb he
    unfold dotCount at *
    rw [List.countP_append, h2]
    omega
  · exact eSplitOK_exp hp hpre hb fun c hc => isDigitDot_of_digit (he c hc)

theorem ecmaFormat_entryOK {s0 : List Char} (hs : ∀ c ∈ s0, isDigitChar c = true)
    (nn : Int) : entryOKL (ecmaFormat s0 nn) = true := by
  have hsd : ∀ c ∈ (if s0.isEmpty then ['0'] else s0), isDigitChar c = true := by
    split
    · intro c hc
      rcases List.mem_singleton.mp hc with rfl
      decide
    · exact hs
  have hsne : (if s0.isEmpty then ['0'] else s0) ≠ [] := by
    split
    · simp
    · rename_i hemp
      intro h0
      exact hemp (by rw [h0]; rfl)
  obtain ⟨c, t, hseq⟩ : ∃ c t, (if s0.isEmpty then ['0'] else s0) = c :: t := by
    rcases hx : (if s0.isEmpty then ['0'] else s0) with _ | ⟨c, t⟩
    · exact absurd hx hsne
    · exact ⟨c, t, rfl⟩
  have hc : isDigitChar c = true := hsd c (by rw [hseq]; simp)
  have ht : ∀ x ∈ t, isDigitChar x = true := fun x hx => hsd x (by rw [hseq]; simp [hx])
  simp only [ecmaFormat]
  rw [hseq]
  split
  · -- positional, integral: digits then padding zeros
    refine entryOKL_digits (by simp) fun x hx => ?_
    rcases List.mem_append.mp hx with h1 | h1
    · rw [← hseq] at h1
      exact hsd x h1
    · rcases List.mem_replicate.mp h1 with ⟨-, rfl⟩
      decide
  · split
    · -- positional with an inner decimal point
      rename_i h2
      obtain ⟨m, hm⟩ : ∃ m, nn.toNat = m + 1 := ⟨nn.toNat - 1, by omega⟩
      rw [hm, List.take_succ_cons, List.drop_succ_cons]
      show entryOKL ((c :: List.take m t) ++ '.' :: List.drop m t) = true
      refine entryOKL_cons hc ?_
      exact eBody_digits_dot
        (by
          intro x hx
          rcases List.mem_cons.mp hx with rfl | h3
          · exact hc
          · exact ht x ((List.take_sublist m t).mem h3))
        (fun x hx => ht x ((List.drop_sublist m t).mem hx))
    · split
      · -- positional below one: "0." then padding zeros then digits
        refine entryOKL_cons (by decide) ?_
        show eBody (['0'] ++ '.' :: (List.replicate (-nn).toNat '0' ++ c :: t)) = true
        refine eBody_digits_dot (by intro x hx; rcases List.mem_singleton.mp hx with rfl; decide)
          fun x hx => ?_
        rcases List.mem_append.mp hx with h1 | h1
        · rcases List.mem_replicate.mp h1 with ⟨-, rfl⟩
          decide
        · rw [← hseq] at h1
          exact hsd x h1
      · -- exponential notation
        rw [show List.take 1 (c :: t) = [c] from rfl]
        have hexp : ∀ eds : List Char, (∀ x ∈ eds, isDigitChar x = true) →
            ∀ mid : List Char, (∀ x ∈ mid, isDigitDot x = true) →
            dotCount mid ≤ 1 →
            ∀ b : Char, (b = '+' ∨ b = '-') →
            entryOKL (([c] ++ mid) ++ 'e' :: b :: eds) = true := by
          intro eds heds mid hmid hmidcnt b hb
          show entryOKL (c :: (mid ++ 'e' :: b :: eds)) = true
          refine entryOKL_cons hc ?_
          have hbody : eBody ((c :: mid) ++ 'e' :: b :: eds) = true := by
            refine eBody_pre_exp ?_ (by simp) ?_ hb heds
            · intro x hx
              rcases List.mem_cons.mp hx with rfl | h3
              · exact isDigitDot_of_digit hc
              · exact hmid x h3
            · have h4 := beq_dot_false_of_digit hc
              unfold dotCount at *
              rw [List.countP_cons]
              simp [h4]
              exact hmidcnt
          exact hbody
        split
        · -- single significant digit: no mantissa dot
          split
          · exact hexp _ natDigits_all [] (by intro x hx; simp at hx) (by decide)
              '-' (Or.inr rfl)
          · exact hexp _ natDigits_all [] (by intro x hx; simp at hx) (by decide)
              '+' (Or.inl rfl)
        · -- mantissa "d.rest"
          have hmid : ∀ x ∈ '.' :: List.drop 1 (c :: t), isDigitDot x = true := by
            intro x hx
            rcases List.mem_cons.mp hx with rfl | h3
            · decide
            · exact isDigitDot_of_digit (ht x h3)
          have hmidcnt : dotCount ('.' :: List.drop 1 (c :: t)) ≤ 1 := by
            have h4 : ∀ x ∈ List.drop 1 (c :: t), isDigitChar x = true := by
              intro x hx
              exact ht x hx
            have h5 := dotCount_zero_of_digits h4
            unfold dotCount at *
            rw [List.countP_cons, h5]
            simp
          split
          · exact hexp _ natDigits_all _ hmid hmidcnt '-' (Or.inr rfl)
          · exact hexp _ natDigits_all _ hmid hmidcnt '+' (Or.inl rfl)

theorem numToStr_entryOK {q : JsNum} (hd : q.d ≠ 0) (hn : 0 ≤ q.n) :
    entryOK (numToStr q) = true := by
  simp only [numToStr, if_neg hd]
  by_cases hz : q.n = 0
  · rw [if_pos hz]
    decide
  · rw [if_neg hz, if_neg (not_lt.mpr hn)]
    split
    · show entryOKL ([] ++ ecmaFormat _ _) = true
      rw [List.nil_append]
      exact ecmaFormat_entryOK
        (fun c hc => natDigits_all c ((stripTrailingZeros_sublist _).mem hc)) _
    · split
      · show entryOKL ([] ++ ecmaFormat _ _) = true
        rw [List.nil_append]
        exact ecmaFormat_entryOK
          (fun c hc => natDigits_all c ((stripTrailingZeros_sublist _).mem hc)) _
      · show entryOKL ([] ++ ecmaFormat _ _) = true
        rw [List.nil_append]
        exact ecmaFormat_entryOK
          (fun c hc => natDigits_all c
            (((stripTrailingZeros_sublist _).trans (List.take_sublist _ _)).mem hc)) _

theorem numToStr_eDisp {q : JsNum} (hd : q.d ≠ 0) : eDisp (numToStr q) = true := by
  by_cases hneg : q.n < 0
  · simp only [numToStr, if_neg hd]
    rw [if_neg (by intro h0; rw [h0] at hneg; exact lt_irrefl 0 hneg), if_pos hneg]
    split
    · show eDispL ('-' :: ecmaFormat _ _) = true
      exact eDispL_dash (eBody_of_entryOKL (ecmaFormat_entryOK
        (fun c hc => natDigits_all c ((stripTrailingZeros_sublist _).mem hc)) _))
    · split
      · show eDispL ('-' :: ecmaFormat _ _) = true
        exact eDispL_dash (eBody_of_entryOKL (ecmaFormat_entryOK
          (fun c hc => natDigits_all c ((stripTrailingZeros_sublist _).mem hc)) _))
      · show eDispL ('-' :: ecmaFormat _ _) = true
        exact eDispL_dash (eBody_of_entryOKL (ecmaFormat_entryOK
          (fun c hc => natDigits_all c
            (((stripTrailingZeros_sublist _).trans (List.take_sublist _ _)).mem hc)) _))
  · exact eDispL_of_entryOKL (numToStr_entryOK hd (not_lt.mp hneg))

/-! ## Lemmas on `jsParseFloat` -/

theorem expFactor_pos (cs : List Char) :
    0 < (expFactor cs).n ∧ 0 < (expFactor cs).d := by
  simp only [expFactor]
  repeat' split
  all_goals constructor
  all_goals
    first
    | exact Int.one_pos
    | exact Nat.one_pos
    | exact pow_pos (show (0 : Int) < 10 from by decide) _
    | exact pow_pos (show (0 : Nat) < 10 from by decide) _

theorem mantissaOf_nonneg (intDs fracDs : List Char) :
    0 ≤ (mantissaOf intDs fracDs).n ∧ 0 < (mantissaOf intDs fracDs).d :=
  ⟨add_nonneg
      (mul_nonneg (Int.natCast_nonneg _) (pow_nonneg (by decide) _))
      (Int.natCast_nonneg _),
    pow_pos (by decide) _⟩

theorem jsParseFloatCore_d_pos {neg : Bool} {intDs fracDs tailCs : List Char}
    {q : JsNum} (h : jsParseFloatCore neg intDs fracDs tailCs = some q) :
    0 < q.d := by
  unfold jsParseFloatCore at h
  split at h
  · exact Option.noConfusion h
  · split at h <;> injection h with h <;> rw [← h] <;>
      exact Nat.mul_pos (mantissaOf_nonneg _ _).2 (expFactor_pos _).2

/-- Whenever `parseFloat` succeeds, the denominator of the produced
fraction is positive. -/
theorem jsParseFloat_d_pos {s : String} {q : JsNum} (h : jsParseFloat s = some q) :
    0 < q.d := by
  simp only [jsParseFloat] at h
  exact jsParseFloatCore_d_pos h

theorem jsParseFloatCore_digit {intDs fracDs tailCs : List Char} {c : Char}
    {t : List Char} (h : intDs = c :: t) :
    ∃ q, jsParseFloatCore false intDs fracDs tailCs = some q ∧ 0 ≤ q.n ∧ 0 < q.d := by
  subst h
  unfold jsParseFloatCore
  rw [if_neg (by rintro ⟨h1, -⟩; simp at h1)]
  rw [if_neg (by simp)]
  refine ⟨_, rfl, ?_, ?_⟩
  · exact mul_nonneg (mantissaOf_nonneg _ _).1 (le_of_lt (expFactor_pos _).1)
  · exact Nat.mul_pos (mantissaOf_nonneg _ _).2 (expFactor_pos _).2

/-- Any string whose first character is a digit parses, to a nonnegative
value over a positive denominator. -/
theorem jsParseFloat_digit_head {s : String} {c : Char} {t : List Char}
    (hcs : s.data = c :: t) (hc : isDigitChar c = true) :
    ∃ q, jsParseFloat s = some q ∧ 0 ≤ q.n ∧ 0 < q.d := by
  have hws : List.dropWhile isWS s.data = c :: t := by
    rw [hcs, List.dropWhile_cons, isWS_false_of_digit hc]
    simp
  have hsign : ¬((c :: t).head? = some '-' ∨ (c :: t).head? = some '+') := by
    rintro (hh | hh) <;> simp only [List.head?_cons, Option.some.injEq] at hh
    · exact ne_dash_of_digit hc hh
    · exact ne_plus_of_digit hc hh
  have hne : ¬((c :: t).head? = some '-') := by
    simp only [List.head?_cons, Option.some.injEq]
    exact ne_dash_of_digit hc
  have htake : List.takeWhile isDigitChar (c :: t) = c :: List.takeWhile isDigitChar t := by
    rw [List.takeWhile_cons, hc]
    simp
  simp only [jsParseFloat, hws]
  rw [if_neg hsign, decide_eq_false hne, htake]
  exact jsParseFloatCore_digit rfl

/-- A digit-headed literal fragment always parses, nonnegatively. -/
theorem jsParseFloat_entryOK {s : String} (h : entryOK s = true) :
    ∃ q, jsParseFloat s = some q ∧ 0 ≤ q.n ∧ 0 < q.d := by
  obtain ⟨c, t, hcs, hc, -⟩ := entryOKL_dest h
  exact jsParseFloat_digit_head hcs hc

/-! ## Closure properties of the display alphabet -/

theorem entryOK_digitStr (d : Fin 10) : entryOK (digitStr d) = true := by
  unfold entryOK digitStr
  rw [mk_data]
  refine entryOKL_digits (by simp) fun c hc => ?_
  rcases List.mem_singleton.mp hc with rfl
  exact isDigitChar_digitCharOf _

theorem entryOK_append_digit {s : String} {ch : Char} (h : entryOK s = true)
    (hc : isDigitChar ch = true) : entryOK (s ++ String.mk [ch]) = true := by
  unfold entryOK at *
  rw [data_append, mk_data]
  refine entryOKL_append h (isDigitDot_of_digit hc) fun heq => ?_
  rw [heq] at hc
  exact absurd hc (by decide)

theorem entryOK_append_dot {s : String} (h : entryOK s = true)
    (hnd : includesChar s '.' = false) : entryOK (s ++ ".") = true := by
  unfold entryOK at *
  rw [data_append]
  have hcnt : dotCount s.data = 0 := by
    unfold dotCount
    refine List.countP_eq_zero.mpr fun a ha hbeq => ?_
    have h2 := List.any_eq_false.mp (by unfold includesChar at hnd; exact hnd) a ha
    exact h2 hbeq
  exact entryOKL_append h (by decide) fun _ => hcnt

theorem goodDisp_of_eDisp {s : String} (h : eDisp s = true) : goodDisp s = true := by
  unfold goodDisp
  rw [h]
  simp

theorem goodDisp_of_entryOK {s : String} (h : entryOK s = true) :
    goodDisp s = true :=
  goodDisp_of_eDisp (eDispL_of_entryOKL h)

theorem goodDisp_numToStr {q : JsNum} (hd : q.d ≠ 0) :
    goodDisp (numToStr q) = true :=
  goodDisp_of_eDisp (numToStr_eDisp hd)

theorem goodDisp_dropLast {s : String} (h : goodDisp s = true)
    (hlen : 1 < s.data.length) : goodDisp (String.mk s.data.dropLast) = true := by
  unfold goodDisp at h
  simp only [Bool.or_eq_true] at h
  have herr : ∀ x ∈ errFronts, 1 < x.data.length →
      goodDisp (String.mk x.data.dropLast) = true := by decide
  have hnan : ∀ x ∈ nanFronts, 1 < x.data.length →
      goodDisp (String.mk x.data.dropLast) = true := by decide
  have hinf : ∀ x ∈ infFronts, 1 < x.data.length →
      goodDisp (String.mk x.data.dropLast) = true := by decide
  rcases h with ((hf | hf) | hf) | hf
  · refine goodDisp_of_eDisp ?_
    unfold eDisp at *
    rw [mk_data]
    exact eDispL_dropLast hf hlen
  · exact herr s (List.elem_iff.mp hf) hlen
  · exact hnan s (List.elem_iff.mp hf) hlen
  · exact hinf s (List.elem_iff.mp hf) hlen

/-! ## The invariant is preserved by every intent -/

theorem inputNumber_ok {s : CalcState} {d : Fin 10} (h : Inv s) :
    Inv (inputNumber (digitStr d) s).1 ∧
      ∀ x ∈ (inputNumber (digitStr d) s).2, goodDisp x = true := by
  obtain ⟨hg, ht⟩ := h
  have hdok := entryOK_digitStr d
  by_cases hr : s.shouldResetDisplay = true
  · simp only [inputNumber, hr, if_true, ite_true]
    refine ⟨⟨goodDisp_of_entryOK hdok, fun _ => hdok⟩, ?_⟩
    intro x hx
    rcases List.mem_singleton.mp hx with rfl
    exact goodDisp_of_entryOK hdok
  · have hrf : s.shouldResetDisplay = false := by
      rcases Bool.eq_false_or_eq_true s.shouldResetDisplay with h2 | h2
      · exact absurd h2 hr
      · exact h2
    have htyped := ht hrf
    simp only [inputNumber, hrf, if_false, ite_false, Bool.false_eq_true]
    by_cases hz : s.currentInput = "0"
    · simp only [hz, if_true, ite_true]
      refine ⟨⟨goodDisp_of_entryOK hdok, fun _ => hdok⟩, ?_⟩
      intro x hx
      rcases List.mem_singleton.mp hx with rfl
      exact goodDisp_of_entryOK hdok
    · simp only [hz, if_false, ite_false]
      have happ : entryOK (s.currentInput ++ digitStr d) = true :=
        entryOK_append_digit htyped (isDigitChar_digitCharOf _)
      refine ⟨⟨goodDisp_of_entryOK happ, fun _ => happ⟩, ?_⟩
      intro x hx
      rcases List.mem_singleton.mp hx with rfl
      exact goodDisp_of_entryOK happ

theorem inputDecimal_ok {s : CalcState} (h : Inv s) :
    Inv (inputDecimal s).1 ∧ ∀ x ∈ (inputDecimal s).2, goodDisp x = true := by
  obtain ⟨hg, ht⟩ := h
  by_cases hr : s.shouldResetDisplay = true
  · simp only [inputDecimal, hr, if_true, ite_true]
    refine ⟨⟨(by decide : goodDisp "0." = true),
      fun _ => (by decide : entryOK "0." = true)⟩, ?_⟩
    intro x hx
    rcases List.mem_singleton.mp hx with rfl
    exact (by decide : goodDisp "0." = true)
  · have hrf : s.shouldResetDisplay = false := by
      rcases Bool.eq_false_or_eq_true s.shouldResetDisplay with h2 | h2
      · exact absurd h2 hr
      · exact h2
    have htyped := ht hrf
    simp only [inputDecimal, hrf, if_false, ite_false, Bool.false_eq_true]
    by_cases hdot : includesChar s.currentInput '.' = false
    · simp only [hdot, Bool.not_false, if_true, ite_true]
      have happ := entryOK_append_dot htyped hdot
      refine ⟨⟨goodDisp_of_entryOK happ, fun _ => happ⟩, ?_⟩
      intro x hx
      rcases List.mem_singleton.mp hx with rfl
      exact goodDisp_of_entryOK happ
    · have hdt : includesChar s.currentInput '.' = true := by
        rcases Bool.eq_false_or_eq_true (includesChar s.currentInput '.') with h2 | h2
        · exact h2
        · exact absurd h2 hdot
      simp only [hdt, Bool.not_true, if_false, ite_false]
      refine ⟨⟨hg, fun _ => htyped⟩, ?_⟩
      intro x hx
      rcases List.mem_singleton.mp hx with rfl
      exact hg

theorem divJ_100 (a : JsNum) : divJ a ⟨100, 1⟩ = ⟨a.n, a.d * 100⟩ := by
  unfold divJ
  rw [if_neg (by decide : ¬(100 : Int) < 0)]
  simp

/-- `calculate` either leaves the state untouched emitting nothing, or
replaces the display by a well-formed result string, blanks the pending
fields, and raises the reset flag. -/
theorem calculate_cases (s : CalcState) :
    calculate s = (s, []) ∨
      ∃ out, calculate s = (⟨out, "", none, true⟩, [out]) ∧ goodDisp out = true := by
  unfold calculate
  rcases hp : jsParseFloat s.previousInput with _ | p
  · exact Or.inl rfl
  · rcases hc : jsParseFloat s.currentInput with _ | c
    · exact Or.inl rfl
    · rcases hop : s.operation with _ | op
      · exact Or.inl rfl
      · right
        have hpd := jsParseFloat_d_pos hp
        have hcd := jsParseFloat_d_pos hc
        refine ⟨_, rfl, ?_⟩
        cases op with
        | add => exact goodDisp_numToStr (Nat.mul_pos hpd hcd).ne'
        | sub => exact goodDisp_numToStr (Nat.mul_pos hpd hcd).ne'
        | mul => exact goodDisp_numToStr (Nat.mul_pos hpd hcd).ne'
        | div =>
          by_cases hz : c.n = 0
          · show goodDisp ((if c.n = 0 then CalcResult.errorStr
              else CalcResult.ofNum (divJ p c)).toDisplay) = true
            rw [if_pos hz]
            decide
          · show goodDisp ((if c.n = 0 then CalcResult.errorStr
              else CalcResult.ofNum (divJ p c)).toDisplay) = true
            rw [if_neg hz]
            exact goodDisp_numToStr (Nat.mul_pos hpd (Int.natAbs_pos.mpr hz)).ne'
        | pct =>
          rw [divJ_100]
          exact goodDisp_numToStr (Nat.mul_pos hpd (by decide)).ne'

theorem calculate_ok {s : CalcState} (h : Inv s) :
    Inv (calculate s).1 ∧ ∀ x ∈ (calculate s).2, goodDisp x = true := by
  rcases calculate_cases s with hc | ⟨out, hc, hgood⟩
  · rw [hc]
    exact ⟨h, by simp⟩
  · rw [hc]
    refine ⟨⟨hgood, fun h2 => Bool.noConfusion h2⟩, ?_⟩
    intro x hx
    rcases List.mem_singleton.mp hx with rfl
    exact hgood

theorem handleOperation_ok {s : CalcState} {op : Op} (h : Inv s) :
    Inv (handleOperation op s).1 ∧
      ∀ x ∈ (handleOperation op s).2, goodDisp x = true := by
  unfold handleOperation
  by_cases hcond : (s.operation.isSome && !s.shouldResetDisplay) = true
  · rw [if_pos hcond]
    rcases calculate_cases s with hc | ⟨out, hc, hgood⟩
    · rw [hc]
      exact ⟨⟨h.1, fun h2 => Bool.noConfusion h2⟩, by simp⟩
    · rw [hc]
      refine ⟨⟨hgood, fun h2 => Bool.noConfusion h2⟩, ?_⟩
      intro x hx
      rcases List.mem_singleton.mp hx with rfl
      exact hgood
  · rw [if_neg hcond]
    exact ⟨⟨h.1, fun h2 => Bool.noConfusion h2⟩, by simp⟩

theorem handlePercent_ok {s : CalcState} (h : Inv s) :
    Inv (handlePercent s).1 ∧ ∀ x ∈ (handlePercent s).2, goodDisp x = true := by
  obtain ⟨hg, ht⟩ := h
  by_cases hr : s.shouldResetDisplay = true
  · rcases hq : jsParseFloat s.currentInput with _ | v
    · simp only [handlePercent, hq]
      refine ⟨⟨(by decide : goodDisp "NaN" = true), ?_⟩, ?_⟩
      · intro h2
        have h3 : s.shouldResetDisplay = false := h2
        rw [hr] at h3
        exact Bool.noConfusion h3
      · intro x hx
        rcases List.mem_singleton.mp hx with rfl
        exact (by decide : goodDisp "NaN" = true)
    · simp only [handlePercent, hq]
      have hgood := goodDisp_numToStr (q := divJ v ⟨100, 1⟩)
        (by rw [divJ_100]; exact (Nat.mul_pos (jsParseFloat_d_pos hq) (by decide)).ne')
      refine ⟨⟨hgood, ?_⟩, ?_⟩
      · intro h2
        have h3 : s.shouldResetDisplay = false := h2
        rw [hr] at h3
        exact Bool.noConfusion h3
      · intro x hx
        rcases List.mem_singleton.mp hx with rfl
        exact hgood
  · have hrf : s.shouldResetDisplay = false := by
      rcases Bool.eq_false_or_eq_true s.shouldResetDisplay with h2 | h2
      · exact absurd h2 hr
      · exact h2
    obtain ⟨q, hq, hqn, hqd⟩ := jsParseFloat_entryOK (ht hrf)
    simp only [handlePercent, hq, divJ_100]
    have htok : entryOK (numToStr ⟨q.n, q.d * 100⟩) = true :=
      numToStr_entryOK (Nat.mul_pos hqd (by decide)).ne' hqn
    refine ⟨⟨goodDisp_of_entryOK htok, fun _ => htok⟩, ?_⟩
    intro x hx
    rcases List.mem_singleton.mp hx with rfl
    exact goodDisp_of_entryOK htok

theorem allClear_ok (s : CalcState) :
    Inv (allClear s).1 ∧ ∀ x ∈ (allClear s).2, goodDisp x = true := by
  refine ⟨⟨(by decide : goodDisp "0" = true),
    fun _ => (by decide : entryOK "0" = true)⟩, ?_⟩
  intro x hx
  rcases List.mem_singleton.mp hx with rfl
  exact (by decide : goodDisp "0" = true)

theorem erase_ok {s : CalcState} (h : Inv s) :
    Inv (erase s).1 ∧ ∀ x ∈ (erase s).2, goodDisp x = true := by
  obtain ⟨hg, ht⟩ := h
  by_cases hlen : 1 < s.currentInput.length
  · simp only [erase, hlen, if_true, ite_true]
    have hlen2 : 1 < s.currentInput.data.length := hlen
    have hgood := goodDisp_dropLast hg hlen2
    refine ⟨⟨hgood, ?_⟩, ?_⟩
    · intro h2
      have h3 : s.shouldResetDisplay = false := h2
      exact entryOKL_dropLast (ht h3) hlen2
    · intro x hx
      rcases List.mem_singleton.mp hx with rfl
      exact hgood
  · simp only [erase, hlen, if_false, ite_false]
    refine ⟨⟨(by decide : goodDisp "0" = true),
      fun _ => (by decide : entryOK "0" = true)⟩, ?_⟩
    intro x hx
    rcases List.mem_singleton.mp hx with rfl
    exact (by decide : goodDisp "0" = true)

theorem step_ok {s : CalcState} (h : Inv s) (i : Intent) :
    Inv (step s i).1 ∧ ∀ x ∈ (step s i).2, goodDisp x = true := by
  cases i with
  | digit d => exact inputNumber_ok h
  | dot => exact inputDecimal_ok h
  | op b => exact handleOperation_ok h
  | eq => exact calculate_ok h
  | pct => exact handlePercent_ok h
  | clear => exact allClear_ok s
  | erase => exact erase_ok h

theorem initState_inv : Inv initState := ⟨by decide, fun _ => by decide⟩

theorem runFrom_inv (l : List Intent) : ∀ s, Inv s → Inv (runFrom s l) := by
  induction l with
  | nil => exact fun s h => h
  | cons i l ih => exact fun s h => ih _ (step_ok h i).1

/-- Every reachable state satisfies the invariant. -/
theorem run_inv (l : List Intent) : Inv (run l) :=
  runFrom_inv l _ initState_inv

theorem emitsFrom_good (l : List Intent) :
    ∀ s, Inv s → ∀ x ∈ emitsFrom s l, goodDisp x = true := by
  induction l with
  | nil =>
    intro s _ x hx
    simp [emitsFrom] at hx
  | cons i l ih =>
    intro s h x hx
    rcases List.mem_append.mp hx with h1 | h1
    · exact (step_ok h i).2 x h1
    · exact ih _ (step_ok h i).1 x h1

/-! ## Digit sequences from a reset state -/

theorem stripLeadZeros_all_zero {cs : List Char}
    (h : List.dropWhile (fun c => c == '0') cs = []) : stripLeadZeros cs = "0" := by
  unfold stripLeadZeros
  rw [h]
  rfl

theorem stripLeadZeros_append_of_zero {cs : List Char} {c : Char}
    (h : List.dropWhile (fun c => c == '0') cs = []) :
    stripLeadZeros (cs ++ [c]) = String.mk [c] := by
  by_cases hc : (c == '0') = true
  · have hc' : c = '0' := by simpa using hc
    subst hc'
    have hall : ∀ x ∈ cs ++ ['0'], (x == '0') = true := by
      intro x hx
      rcases List.mem_append.mp hx with h1 | h1
      · exact List.dropWhile_eq_nil_iff.mp h x h1
      · rcases List.mem_singleton.mp h1 with rfl
        rfl
    rw [stripLeadZeros_all_zero (List.dropWhile_eq_nil_iff.mpr hall)]
  · have hcf : (c == '0') = false := by
      rcases Bool.eq_false_or_eq_true (c == '0') with h2 | h2
      · exact absurd h2 hc
      · exact h2
    have hd : List.dropWhile (fun x => x == '0') (cs ++ [c]) = [c] := by
      rw [List.dropWhile_append, h]
      simp only [List.isEmpty_nil, ite_true, if_true]
      rw [List.dropWhile_cons, hcf]
      rfl
    unfold stripLeadZeros
    rw [hd]
    rfl

theorem bool_eq_false {b : Bool} (h : ¬b = true) : b = false := by
  rcases Bool.eq_false_or_eq_true b with h2 | h2
  · exact absurd h2 h
  · exact h2

theorem dropWhile_cons_head_false {p : Char → Bool} {l : List Char} {a : Char}
    {t : List Char} (h : l.dropWhile p = a :: t) : p a = false := by
  induction l with
  | nil => exact List.noConfusion h
  | cons b u ih =>
    rw [List.dropWhile_cons] at h
    by_cases hb : p b = true
    · rw [if_pos hb] at h
      exact ih h
    · rw [if_neg hb] at h
      injection h with h1 h2
      rw [← h1]
      exact bool_eq_false hb

theorem stripLeadZeros_append_pos {cs : List Char} {e : Char} {r : List Char}
    (h : List.dropWhile (fun c => c == '0') cs = e :: r) (c : Char) :
    stripLeadZeros (cs ++ [c]) = String.mk (e :: r ++ [c]) ∧
      stripLeadZeros cs = String.mk (e :: r) ∧ (e == '0') = false := by
  have he := dropWhile_cons_head_false h
  refine ⟨?_, ?_, he⟩
  · have hd : List.dropWhile (fun x => x == '0') (cs ++ [c]) = e :: r ++ [c] := by
      rw [List.dropWhile_append, h]
      simp
    unfold stripLeadZeros
    rw [hd]
    rfl
  · unfold stripLeadZeros
    rw [h]
    rfl

theorem inputNumber_digits_step {cs : List Char} {pv : String} {op : Option Op}
    (d : Fin 10) :
    (inputNumber (digitStr d) ⟨stripLeadZeros cs, pv, op, false⟩).1 =
      ⟨stripLeadZeros (cs ++ [digitCharOf d.val]), pv, op, false⟩ := by
  by_cases h : List.dropWhile (fun c => c == '0') cs = []
  · have hz := stripLeadZeros_all_zero h
    have happ := stripLeadZeros_append_of_zero (c := digitCharOf d.val) h
    simp [inputNumber, hz, happ, digitStr]
  · obtain ⟨e, r, hdw⟩ : ∃ e r, List.dropWhile (fun c => c == '0') cs = e :: r := by
      rcases hdw : List.dropWhile (fun c => c == '0') cs with _ | ⟨e, r⟩
      · exact absurd hdw h
      · exact ⟨e, r, rfl⟩
    obtain ⟨h1, h2, he⟩ := stripLeadZeros_append_pos hdw (digitCharOf d.val)
    have hne : stripLeadZeros cs ≠ "0" := by
      rw [h2]
      intro hx
      have h3 := mk_inj hx
      injection h3 with h4 h5
      rw [h4] at he
      exact absurd he (by decide)
    have hcat : stripLeadZeros cs ++ digitStr d =
        String.mk (e :: r ++ [digitCharOf d.val]) := by
      rw [h2]
      rfl
    simp [inputNumber, hne, h1, hcat]

theorem runFrom_digits (ds : List (Fin 10)) :
    ∀ (cs : List Char) (pv : String) (op : Option Op),
      runFrom ⟨stripLeadZeros cs, pv, op, false⟩ (ds.map Intent.digit) =
        ⟨stripLeadZeros (cs ++ digitChars ds), pv, op, false⟩ := by
  induction ds with
  | nil =>
    intro cs pv op
    simp [runFrom, digitChars]
  | cons d ds ih =>
    intro cs pv op
    show runFrom (step ⟨stripLeadZeros cs, pv, op, false⟩ (Intent.digit d)).1
      (ds.map Intent.digit) = _
    rw [show (step ⟨stripLeadZeros cs, pv, op, false⟩ (Intent.digit d)).1 =
        ⟨stripLeadZeros (cs ++ [digitCharOf d.val]), pv, op, false⟩ from
      inputNumber_digits_step d]
    rw [ih (cs ++ [digitCharOf d.val]) pv op]
    simp [digitChars, List.append_assoc]

/-! ## Idempotence of the decimal-point intent -/

theorem includesChar_append_dot (t : String) : includesChar (t ++ ".") '.' = true := by
  unfold includesChar
  rw [data_append, List.any_append]
  simp

theorem inputDecimal_nochange {s : CalcState} (hr : s.shouldResetDisplay = false)
    (hd : includesChar s.currentInput '.' = true) : (inputDecimal s).1 = s := by
  simp [inputDecimal, hr, hd]

theorem inputDecimal_idem (s : CalcState) :
    (inputDecimal (inputDecimal s).1).1 = (inputDecimal s).1 := by
  by_cases hr : s.shouldResetDisplay = true
  · have h1 : (inputDecimal s).1 =
        { s with currentInput := "0.", shouldResetDisplay := false } := by
      simp [inputDecimal, hr]
    rw [h1]
    exact inputDecimal_nochange rfl (by decide : includesChar "0." '.' = true)
  · have hrf : s.shouldResetDisplay = false := by
      rcases Bool.eq_false_or_eq_true s.shouldResetDisplay with h2 | h2
      · exact absurd h2 hr
      · exact h2
    by_cases hdot : includesChar s.currentInput '.' = true
    · rw [inputDecimal_nochange hrf hdot]
      exact inputDecimal_nochange hrf hdot
    · have hdf : includesChar s.currentInput '.' = false := by
        rcases Bool.eq_false_or_eq_true (includesChar s.currentInput '.') with h2 | h2
        · exact absurd h2 hdot
        · exact h2
      have h1 : (inputDecimal s).1 = { s with currentInput := s.currentInput ++ "." } := by
        simp [inputDecimal, hrf, hdf]
      rw [h1]
      exact inputDecimal_nochange hrf (includesChar_append_dot s.currentInput)

theorem dotCount_le_one_of_goodDisp {s : String} (h : goodDisp s = true) :
    dotCount s.data ≤ 1 := by
  unfold goodDisp at h
  simp only [Bool.or_eq_true] at h
  have herr : ∀ x ∈ errFronts, dotCount x.data ≤ 1 := by decide
  have hnan : ∀ x ∈ nanFronts, dotCount x.data ≤ 1 := by decide
  have hinf : ∀ x ∈ infFronts, dotCount x.data ≤ 1 := by decide
  rcases h with ((hf | hf) | hf) | hf
  · unfold eDisp at hf
    rcases hcs : s.data with _ | ⟨c, t⟩
    · decide
    · rw [hcs] at hf
      have h2 : (if c = '-' then eBody t else eBody (c :: t)) = true := hf
      by_cases hc : c = '-'
      · subst hc
        rw [if_pos rfl] at h2
        unfold eBody at h2
        rw [Bool.and_eq_true] at h2
        have hcnt := h2.1
        simp only [decide_eq_true_eq] at hcnt
        unfold dotCount at *
        rw [List.countP_cons]
        simpa using hcnt
      · rw [if_neg hc] at h2
        unfold eBody at h2
        rw [Bool.and_eq_true] at h2
        have hcnt := h2.1
        simp only [decide_eq_true_eq] at hcnt
        exact hcnt
  · exact herr s (List.elem_iff.mp hf)
  · exact hnan s (List.elem_iff.mp hf)
  · exact hinf s (List.elem_iff.mp hf)

/-! ## Claims -/

/-- C1 (code bug): the spec requires a chained operator to fold the
pending operation and make the folded result the new pending operand, so
that digit(5), operator(Add), digit(3), operator(Subtract), digit(2),
equals() ends with CurrentEntry = "6".  The source's chained branch calls
`calculate()` (which blanks `previousInput`) but never stores
`currentInput` back into `previousInput`, so the final `equals()` is a
silent no-op and the sequence ends with CurrentEntry = "2". -/
theorem chained_operator_bug :
    (run [Intent.digit 5, Intent.op BinOp.add, Intent.digit 3, Intent.op BinOp.sub,
        Intent.digit 2, Intent.eq]).currentInput = "2" ∧
      (run [Intent.digit 5, Intent.op BinOp.add, Intent.digit 3, Intent.op BinOp.sub,
        Intent.digit 2, Intent.eq]).currentInput ≠ "6" :=
  ⟨by decide, by decide⟩

/-- C2 (code bug): the spec's invariant "PendingOperator is set iff
PendingOperand is non-empty (transients excepted)" is broken in a state
between intents: after digit(5), operator(Add), digit(3),
operator(Subtract) the engine rests with `operation` set to Subtract
while `previousInput` is the empty string, because the chained branch of
`handleOperation` never repopulates `previousInput` after
`calculate()` blanked it. -/
theorem pending_pair_bug :
    (run [Intent.digit 5, Intent.op BinOp.add, Intent.digit 3,
        Intent.op BinOp.sub]).operation = some Op.sub ∧
      (run [Intent.digit 5, Intent.op BinOp.add, Intent.digit 3,
        Intent.op BinOp.sub]).previousInput = "" :=
  ⟨by decide, by decide⟩

/-- C3 (counterexample): after digit(8), operator(Divide), digit(0),
equals(), erase(), the string pushed to the renderer is "Erro", which is
neither a decimal literal, nor "Error", nor "NaN". -/
theorem display_alphabet_cex :
    (emits [Intent.digit 8, Intent.op BinOp.div, Intent.digit 0, Intent.eq,
        Intent.erase]).getLast? = some "Erro" ∧
      specDisplayOK "Erro" = false :=
  ⟨by decide, by decide⟩

/-- C3 (amended): every string the engine ever pushes to the renderer is
a (possibly truncated, possibly signed, possibly still partial) decimal
literal with an optional exponent part (toString switches to exponential
notation, e.g. "1e-8" or "1e+21", outside the positional range), or a
nonempty front portion of one of the sentinels "Error", "NaN",
"Infinity" or "-Infinity" — the truncated sentinel fronts arise only
because erase() chops sentinel strings character by character. -/
theorem display_alphabet (l : List Intent) :
    ∀ x ∈ emits l, goodDisp x = true :=
  emitsFrom_good l initState initState_inv

/-- C3 witness: the amended display-alphabet theorem applied to the run
digit 1, percent, percent, percent, percent, whose final display really
is the exponential-notation string "1e-8". -/
theorem display_alphabet_witness :
    goodDisp "1e-8" = true ∧
      (run [Intent.digit 1, Intent.pct, Intent.pct, Intent.pct,
        Intent.pct]).currentInput = "1e-8" :=
  ⟨display_alphabet [Intent.digit 1, Intent.pct, Intent.pct, Intent.pct,
      Intent.pct] "1e-8" (by decide),
    by decide⟩

/-- C4: whenever a Divide operation is pending (operator stored and left
operand parseable) and the displayed operand parses to zero,
calculate()/equals() displays the "Error" sentinel, clears the pending
operator and operand, raises the reset flag, and a subsequent digit
starts a fresh entry. -/
theorem divide_by_zero_spec (s : CalcState) (p c : JsNum)
    (hop : s.operation = some Op.div)
    (hp : jsParseFloat s.previousInput = some p)
    (hc : jsParseFloat s.currentInput = some c)
    (hz : c.n = 0) :
    (calculate s).1.currentInput = "Error" ∧
      (calculate s).1.operation = none ∧
      (calculate s).1.previousInput = "" ∧
      (calculate s).1.shouldResetDisplay = true ∧
      ∀ d : Fin 10,
        (inputNumber (digitStr d) (calculate s).1).1.currentInput = digitStr d ∧
          (inputNumber (digitStr d) (calculate s).1).1.shouldResetDisplay = false := by
  have hcalc : calculate s = (⟨"Error", "", none, true⟩, ["Error"]) := by
    simp only [calculate, hp, hc, hop]
    rw [if_pos hz]
    rfl
  rw [hcalc]
  refine ⟨rfl, rfl, rfl, rfl, ?_⟩
  intro d
  exact ⟨rfl, rfl⟩

/-- C4 witness: the divide-by-zero theorem at the concrete run
digit(8), operator(Divide), digit(0). -/
theorem divide_by_zero_spec_witness :
    (calculate (run [Intent.digit 8, Intent.op BinOp.div, Intent.digit 0])).1.currentInput
        = "Error" ∧
      (calculate (run [Intent.digit 8, Intent.op BinOp.div,
        Intent.digit 0])).1.operation = none :=
  ⟨(divide_by_zero_spec _ ⟨8, 1⟩ ⟨0, 1⟩ (by decide) (by decide) (by decide) rfl).1,
    (divide_by_zero_spec _ ⟨8, 1⟩ ⟨0, 1⟩ (by decide) (by decide) (by decide) rfl).2.1⟩

/-- C5: when either stored operand fails to parse, calculate()/equals()
is a complete no-op: the state is returned unchanged and nothing is
pushed to the renderer. -/
theorem invalid_parse_noop (s : CalcState)
    (h : jsParseFloat s.previousInput = none ∨ jsParseFloat s.currentInput = none) :
    calculate s = (s, []) := by
  unfold calculate
  rcases h with h | h
  · rw [h]
  · rcases hp : jsParseFloat s.previousInput with _ | p
    · rfl
    · rw [h]

/-- C5 witness: on the fresh state `previousInput` is empty, hence
unparseable, and equals() does nothing. -/
theorem invalid_parse_noop_witness : calculate initState = (initState, []) :=
  invalid_parse_noop initState (Or.inl (by decide))

/-- C6: a digit sequence issued from the reset state leaves CurrentEntry
equal to the digit concatenation with redundant leading zeros suppressed
(so "0","0","5" shows "5"), and a digit issued while the reset flag is up
overwrites CurrentEntry with that digit and lowers the flag. -/
theorem digit_entry_concat :
    (∀ ds : List (Fin 10),
        (run (ds.map Intent.digit)).currentInput = stripLeadZeros (digitChars ds)) ∧
      (run [Intent.digit 0, Intent.digit 0, Intent.digit 5]).currentInput = "5" ∧
      ∀ (s : CalcState) (d : Fin 10), s.shouldResetDisplay = true →
        (inputNumber (digitStr d) s).1.currentInput = digitStr d ∧
          (inputNumber (digitStr d) s).1.shouldResetDisplay = false := by
  refine ⟨?_, by decide, ?_⟩
  · intro ds
    have hinit : initState = ⟨stripLeadZeros [], "", none, false⟩ := rfl
    show (runFrom initState (ds.map Intent.digit)).currentInput = _
    rw [hinit, runFrom_digits ds [] "" none]
    simp
  · intro s d hr
    constructor <;> simp [inputNumber, hr]

/-- C6 witness: the digit-concatenation law at "0","0","5", and the
overwrite law at a concrete state with the reset flag up. -/
theorem digit_entry_concat_witness :
    (run ([0, 0, 5].map Intent.digit)).currentInput = stripLeadZeros (digitChars [0, 0, 5]) ∧
      (inputNumber (digitStr 7) ⟨"8", "", none, true⟩).1.currentInput = digitStr 7 :=
  ⟨digit_entry_concat.1 [0, 0, 5],
    (digit_entry_concat.2.2 ⟨"8", "", none, true⟩ 7 rfl).1⟩

/-- C7: in every reachable state CurrentEntry contains at most one
decimal point, and decimalPoint() twice in a row equals decimalPoint()
once (idempotence beyond the first call), on every state. -/
theorem decimal_point_invariant :
    (∀ l : List Intent, dotCount (run l).currentInput.data ≤ 1) ∧
      ∀ s : CalcState, (inputDecimal (inputDecimal s).1).1 = (inputDecimal s).1 := by
  constructor
  · intro l
    exact dotCount_le_one_of_goodDisp (run_inv l).1
  · exact inputDecimal_idem

/-- C8: percent() replaces CurrentEntry by the textual form of
parse(CurrentEntry)/100 immediately, leaves PendingOperand and
PendingOperator untouched, pushes exactly the new CurrentEntry, maps
"50" to "0.5", and displays "NaN" when CurrentEntry does not parse. -/
theorem percent_immediate_unary (s : CalcState) :
    (handlePercent s).1.currentInput =
        (match jsParseFloat s.currentInput with
          | none => "NaN"
          | some v => numToStr (divJ v ⟨100, 1⟩)) ∧
      (handlePercent s).1.previousInput = s.previousInput ∧
      (handlePercent s).1.operation = s.operation ∧
      (handlePercent s).2 = [(handlePercent s).1.currentInput] ∧
      (run [Intent.digit 5, Intent.digit 0, Intent.pct]).currentInput = "0.5" ∧
      (run [Intent.digit 8, Intent.op BinOp.div, Intent.digit 0, Intent.eq,
        Intent.pct]).currentInput = "NaN" :=
  ⟨rfl, rfl, rfl, rfl, by decide, by decide⟩

/-- C9: eraseLast() drops the last character when CurrentEntry has more
than one character and otherwise floors CurrentEntry at "0", never
touching the pending operand, the pending operator, or the reset flag;
"12" erases to "1", then "0", then stays "0". -/
theorem erase_last_spec (s : CalcState) :
    (erase s).1.currentInput =
        (if 1 < s.currentInput.length then String.mk s.currentInput.data.dropLast
          else "0") ∧
      (erase s).1.previousInput = s.previousInput ∧
      (erase s).1.operation = s.operation ∧
      (erase s).1.shouldResetDisplay = s.shouldResetDisplay ∧
      (erase ⟨"12", "", none, false⟩).1.currentInput = "1" ∧
      (erase (erase ⟨"12", "", none, false⟩).1).1.currentInput = "0" ∧
      (erase (erase (erase ⟨"12", "", none, false⟩).1).1).1.currentInput = "0" := by
  refine ⟨?_, ?_, ?_, ?_, by decide, by decide, by decide⟩
  · unfold erase
    split <;> rfl
  · unfold erase
    split <;> rfl
  · unfold erase
    split <;> rfl
  · unfold erase
    split <;> rfl

/-- C10 (counterexample): percent() produces a result yet does not raise
the reset flag: after digit(5), digit(0), percent() the flag is still
false, so a following digit(3) appends, displaying "0.53" instead of
overwriting. -/
theorem percent_resetFlag_cex :
    (run [Intent.digit 5, Intent.digit 0, Intent.pct]).shouldResetDisplay = false ∧
      (run [Intent.digit 5, Intent.digit 0, Intent.pct,
        Intent.digit 3]).currentInput = "0.53" :=
  ⟨by decide, by decide⟩

/-- C10 (amended): the reset flag is true immediately after any
operator() intent and after any calculate()/equals() that actually
computes (operator stored and both operands parseable); percent(),
however, leaves the reset flag exactly as it was. -/
theorem resetFlag_after_operator_and_result :
    (∀ (s : CalcState) (op : Op),
        (handleOperation op s).1.shouldResetDisplay = true) ∧
      (∀ (s : CalcState) (p c : JsNum) (op : Op),
        s.operation = some op →
        jsParseFloat s.previousInput = some p →
        jsParseFloat s.currentInput = some c →
        (calculate s).1.shouldResetDisplay = true) ∧
      ∀ s : CalcState, (handlePercent s).1.shouldResetDisplay = s.shouldResetDisplay := by
  refine ⟨?_, ?_, ?_⟩
  · intro s op
    rfl
  · intro s p c op hop hp hc
    simp only [calculate, hp, hc, hop]
  · intro s
    rfl

/-- C10 witness: the amended reset-flag law at a concrete
calculate() call. -/
theorem resetFlag_witness :
    (calculate ⟨"3", "2", some Op.add, false⟩).1.shouldResetDisplay = true :=
  resetFlag_after_operator_and_result.2.1 ⟨"3", "2", some Op.add, false⟩ ⟨2, 1⟩ ⟨3, 1⟩
    Op.add rfl (by decide) (by decide)

end Calculator
